import Mathlib

/-!
Verification of the computational core of `alignment_tools` (file
`src/alignment_tools/align_affine_2D.py`) against its natural-language
specification.  The Python code is shallowly embedded: Qt `QPoint`s are pairs
of integers, floating-point scalars are rationals, numpy arrays over a small
fixed shape are Lean matrices/functions, and each widget callback becomes an
explicit state-transition function.
-/

open Matrix

/-- Binary `max` on ℚ (Python `max`, numpy `maximum`), written with `if` so
that it evaluates by kernel reduction. -/
def maxQ (a b : ℚ) : ℚ := if a ≤ b then b else a

/-- Binary `min` on ℚ (numpy `minimum`), written with `if` so that it
evaluates by kernel reduction. -/
def minQ (a b : ℚ) : ℚ := if a ≤ b then a else b

lemma maxQ_eq_max (a b : ℚ) : maxQ a b = max a b := by
  simp only [maxQ, max_def]

lemma minQ_eq_min (a b : ℚ) : minQ a b = min a b := by
  simp only [minQ, min_def]

/-- Python `int(x)`: truncation toward zero. -/
def pyInt (q : ℚ) : ℤ := if 0 ≤ q then ⌊q⌋ else ⌈q⌉

/-- Qt `qRound`, used by `QPoint` division and multiplication by a scalar:
rounding to the nearest integer, ties away from zero. -/
def qRound (q : ℚ) : ℤ := if 0 ≤ q then ⌊q + 1/2⌋ else ⌈q - 1/2⌉

lemma floor_half : ⌊(1:ℚ)/2⌋ = 0 := by
  rw [Int.floor_eq_iff]
  norm_num

lemma qRound_intCast (n : ℤ) : qRound (n : ℚ) = n := by
  unfold qRound
  rcases le_or_lt 0 (n : ℚ) with h | h
  · rw [if_pos h, add_comm, Int.floor_add_int, floor_half, zero_add]
  · rw [if_neg (not_le.mpr h), sub_eq_add_neg, add_comm, Int.ceil_add_int]
    norm_num

lemma pyInt_intCast (n : ℤ) : pyInt (n : ℚ) = n := by
  unfold pyInt
  split
  · exact Int.floor_intCast n
  · exact Int.ceil_intCast n

lemma qRound_eval (q : ℚ) (n : ℤ) (h0 : 0 ≤ q) (hl : (n:ℚ) ≤ q + 1/2) (hu : q + 1/2 < n + 1) :
    qRound q = n := by
  unfold qRound
  rw [if_pos h0, Int.floor_eq_iff]
  exact ⟨hl, hu⟩

lemma pyInt_zero : pyInt 0 = 0 := by
  unfold pyInt
  norm_num

lemma qRound_zero : qRound 0 = 0 := by
  unfold qRound
  rw [if_pos le_rfl, zero_add, floor_half]

/-- Model of `np.clip(v, lo, hi)`, that is `min(hi, max(lo, v))`. -/
def clipQ (v lo hi : ℚ) : ℚ := minQ (maxQ v lo) hi

/-- Python `delta and delta // abs(delta)`: `0` when `delta = 0`, otherwise the
sign of `delta` (floor division of an integer by its absolute value). -/
def pySign (d : ℤ) : ℤ := if d = 0 then 0 else if 0 < d then 1 else -1

/-! ## Viewport (zoom / pan state of `ImageControl`)

State mirrors the fields set up in `ImageControl.__init__` (lines 43-50):
`zoom`, `bottomleft`, `topright`, `center`; `QPoint` components are integers.
The image extent `(im_height, im_width)` is passed explicitly. -/

structure VP where
  zoom : ℚ
  bottomleft : ℤ × ℤ
  topright : ℤ × ℤ
  center : ℤ × ℤ
deriving DecidableEq, Repr

/-- Constructor `ImageControl.__init__` lines 44-50: zoom 1, `bottomleft = QPoint(0,0)`,
`topright = QPoint(im_height, im_width)`, `center = QPoint(H//2, W//2)`
(components exactly as written in the source, x first). -/
def vp_init (H W : ℕ) : VP :=
  { zoom := 1
    bottomleft := (0, 0)
    topright := ((H : ℤ), (W : ℤ))
    center := (((H / 2 : ℕ) : ℤ), ((W / 2 : ℕ) : ℤ)) }

/-- Handler `ImageControl.on_mouse_wheel` (lines 280-300).  `delta` is
`event.angleDelta().y()`.  Intermediate `left/right/bottom/top` are kept exact
(rationals); the final `QPoint(..)/self.zoom` divisions round with `qRound`
(Qt `QPoint` scalar division semantics). -/
def on_mouse_wheel (H W : ℕ) (delta : ℤ) (s : VP) : VP :=
  let z := maxQ (s.zoom + (1/10) * (pySign delta : ℚ)) 1
  let h : ℚ := (H : ℚ) * z
  let w : ℚ := (W : ℚ) * z
  let left := clipQ ((pyInt ((s.center.1 : ℚ) * z - (W : ℚ) / 2) : ℤ) : ℚ) 0 (w - W)
  let right := left + W
  let bottom := clipQ ((pyInt ((s.center.2 : ℚ) * z - (H : ℚ) / 2) : ℤ) : ℚ) 0 (h - H)
  let top := bottom + H
  { zoom := z
    bottomleft := (qRound (left / z), qRound (bottom / z))
    topright := (qRound (right / z), qRound (top / z))
    center := (qRound ((left + right) / 2 / z), qRound ((bottom + top) / 2 / z)) }

/-- Handler `ImageControl.on_mouse_move` (lines 302-346), the right-button (pan)
branch.  `pos` is `event.pos()`; the cursor-warp side effects are display-only
and not modelled. -/
def on_mouse_move (H W : ℕ) (pos : ℤ × ℤ) (s : VP) : VP :=
  let dx : ℤ := if (pos.1 : ℚ) < (1/20) * W then -10
    else if (9/10) * (W : ℚ) < (pos.1 : ℚ) then 10 else 0
  let dy : ℤ := if (pos.2 : ℚ) < (1/20) * H then -10
    else if (9/10) * (H : ℚ) < (pos.2 : ℚ) then 10 else 0
  let z := s.zoom
  let h : ℚ := (H : ℚ) * z
  let w : ℚ := (W : ℚ) * z
  let left := clipQ ((pyInt ((s.bottomleft.1 : ℚ) * z + (dx : ℚ)) : ℤ) : ℚ) 0 (w - W)
  let right := left + W
  let bottom := clipQ ((pyInt ((s.bottomleft.2 : ℚ) * z + (dy : ℚ)) : ℤ) : ℚ) 0 (h - H)
  let top := bottom + H
  { zoom := z
    bottomleft := (qRound (left / z), qRound (bottom / z))
    topright := (qRound (right / z), qRound (top / z))
    center := (qRound ((left + right) / 2 / z), qRound ((bottom + top) / 2 / z)) }

/-- From `ImageControlCP.paintEvent` line 416: display position of an image-space
point is `(p - self.bottomleft) * self.zoom`, with Qt rounding. -/
def to_display_space (zoom : ℚ) (bl : ℤ × ℤ) (p : ℤ × ℤ) : ℤ × ℤ :=
  (qRound (((p.1 - bl.1 : ℤ) : ℚ) * zoom), qRound (((p.2 - bl.2 : ℤ) : ℚ) * zoom))

/-- From `ImageControlCP.on_mouse_press` line 435: image position of a display
point is `event.pos() / self.zoom + self.bottomleft`, with Qt rounding. -/
def to_image_space (zoom : ℚ) (bl : ℤ × ℤ) (d : ℤ × ℤ) : ℤ × ℤ :=
  (qRound ((d.1 : ℚ) / zoom) + bl.1, qRound ((d.2 : ℚ) / zoom) + bl.2)

/-- States reachable from a fresh `ImageControl` by wheel-zoom and pan events. -/
inductive VPReach (H W : ℕ) : VP → Prop
  | init : VPReach H W (vp_init H W)
  | wheel : ∀ (delta : ℤ) (s : VP), VPReach H W s → VPReach H W (on_mouse_wheel H W delta s)
  | pan : ∀ (pos : ℤ × ℤ) (s : VP), VPReach H W s → VPReach H W (on_mouse_move H W pos s)

lemma vpreach_zoom_ge_one {H W : ℕ} {s : VP} (h : VPReach H W s) : 1 ≤ s.zoom := by
  induction h with
  | init => simp [vp_init]
  | wheel delta s _ _ =>
      simp only [on_mouse_wheel, maxQ_eq_max]
      exact le_max_right _ _
  | pan pos s _ ih => exact ih

/-- Round-tripping an integer through multiply-round, then divide-round, is the
identity for any zoom factor `z ≥ 1` and any nonnegative integer offset. -/
lemma qRound_mul_div_round (z : ℚ) (hz : 1 ≤ z) (x : ℤ) (hx : 0 ≤ x) :
    qRound ((qRound ((x : ℚ) * z) : ℚ) / z) = x := by
  have hz0 : (0:ℚ) < z := lt_of_lt_of_le one_pos hz
  have hxq : (0:ℚ) ≤ (x : ℚ) := by exact_mod_cast hx
  have hxz : (0:ℚ) ≤ (x : ℚ) * z := mul_nonneg hxq hz0.le
  have h1 : qRound ((x : ℚ) * z) = ⌊(x : ℚ) * z + 1/2⌋ := by
    unfold qRound
    rw [if_pos hxz]
  rw [h1]
  set n := ⌊(x : ℚ) * z + 1/2⌋ with hn
  have hn_le : (n : ℚ) ≤ (x : ℚ) * z + 1/2 := Int.floor_le _
  have hn_gt : (x : ℚ) * z + 1/2 < (n : ℚ) + 1 := Int.lt_floor_add_one _
  have hn0 : (0 : ℤ) ≤ n := Int.le_floor.mpr (by push_cast; linarith)
  have hn0q : (0:ℚ) ≤ (n : ℚ) := by exact_mod_cast hn0
  have hq0 : (0:ℚ) ≤ (n : ℚ) / z := div_nonneg hn0q hz0.le
  unfold qRound
  rw [if_pos hq0, Int.floor_eq_iff]
  have hzne : z ≠ 0 := hz0.ne'
  have key : (n : ℚ) / z + 1/2 = ((n : ℚ) + z/2) / z := by
    rw [eq_div_iff hzne, add_mul, div_mul_cancel₀ _ hzne]
    ring
  rw [key, le_div_iff₀ hz0, div_lt_iff₀ hz0]
  constructor
  · linarith
  · rcases eq_or_lt_of_le hz with hz1 | hz1
    · have hxn : n = x := by
        rw [hn, ← hz1, mul_one, add_comm, Int.floor_add_int, floor_half, zero_add]
      rw [hxn, ← hz1]
      linarith
    · nlinarith

/-- C5: for every reachable viewport state and every point `p` inside the
current window, mapping `p` to display space (subtract window origin, multiply
by zoom, Qt rounding) and back to image space (divide by zoom, add origin)
returns exactly `p`, after any sequence of zoom and pan operations. -/
theorem viewport_roundtrip (H W : ℕ) (s : VP) (hs : VPReach H W s) (p : ℤ × ℤ)
    (h1 : s.bottomleft.1 ≤ p.1) (h2 : s.bottomleft.2 ≤ p.2)
    (h3 : p.1 ≤ s.topright.1) (h4 : p.2 ≤ s.topright.2) :
    to_image_space s.zoom s.bottomleft (to_display_space s.zoom s.bottomleft p) = p := by
  have hz := vpreach_zoom_ge_one hs
  unfold to_display_space to_image_space
  have e1 := qRound_mul_div_round s.zoom hz (p.1 - s.bottomleft.1) (by omega)
  have e2 := qRound_mul_div_round s.zoom hz (p.2 - s.bottomleft.2) (by omega)
  rw [Prod.ext_iff]
  constructor
  · simp only [e1]
    omega
  · simp only [e2]
    omega

/-- Witness for C5 at a concrete reachable state and point. -/
theorem viewport_roundtrip_witness :
    to_image_space (vp_init 4 4).zoom (vp_init 4 4).bottomleft
      (to_display_space (vp_init 4 4).zoom (vp_init 4 4).bottomleft (2, 3)) = (2, 3) :=
  viewport_roundtrip 4 4 (vp_init 4 4) VPReach.init (2, 3)
    (by norm_num [vp_init]) (by norm_num [vp_init]) (by norm_num [vp_init]) (by norm_num [vp_init])

/-- C9: for every starting zoom `≥ 1` and every wheel input (any sign or
magnitude, including zero), `on_mouse_wheel` never produces a zoom below `1`:
the source computes `max(zoom + 0.10*sign(delta), 1.0)`. -/
theorem on_mouse_wheel_zoom_ge_one (H W : ℕ) (delta : ℤ) (s : VP) (h : 1 ≤ s.zoom) :
    1 ≤ (on_mouse_wheel H W delta s).zoom := by
  simp only [on_mouse_wheel, maxQ_eq_max]
  exact le_max_right _ _

/-- Witness for C9: zooming out from a fresh viewport keeps zoom at `1`. -/
theorem on_mouse_wheel_zoom_ge_one_witness :
    1 ≤ (on_mouse_wheel 3 3 (-120) (vp_init 3 3)).zoom :=
  on_mouse_wheel_zoom_ge_one 3 3 (-120) (vp_init 3 3) (by norm_num [vp_init])

/-- C4 (code bug): on a non-square image with `im_height = 4`, `im_width = 2`,
`ImageControl.__init__` sets `topright = QPoint(im_height, im_width) = (4, 2)`,
i.e. the x bound is the image height; but the pan handler of the same class
clamps the window with x as the width axis, so the first pan at zoom 1 yields
`topright = (2, 4) ≠ (4, 2)`.  Hence at zoom 1 the freshly created window is
not the full image extent and a pan does change it, contradicting the claim. -/
theorem vp_init_window_transposed :
    (vp_init 4 2).zoom = 1 ∧
    (vp_init 4 2).topright = (4, 2) ∧
    (on_mouse_move 4 2 (1, 1) (vp_init 4 2)).topright = (2, 4) ∧
    ((4 : ℤ), (2 : ℤ)) ≠ ((2 : ℤ), (4 : ℤ)) := by
  refine ⟨rfl, rfl, ?_, by decide⟩
  norm_num [on_mouse_move, vp_init, clipQ, maxQ, minQ, pyInt_zero]
  constructor <;> (apply qRound_eval <;> norm_num)

/-! ## Control points (`ImageControlCP`)

A control point is a stored `QPoint` (image-space, integer components) and an
integer label, matching the `(pos, num)` tuples in `self.control_points`. -/

abbrev CPt : Type := (ℤ × ℤ) × ℕ

/-- Line 434: `num = 0 if not self.control_points else
max(self.control_points, key=lambda x: x[1])[1] + 1`.  `max` with that key
returns an element whose label is the largest; `foldl Nat.max 0` over the
labels of a nonempty list is that same maximum (labels are nonnegative). -/
def nextId : List CPt → ℕ
  | [] => 0
  | x :: rest => (((x :: rest).map Prod.snd).foldl Nat.max 0) + 1

/-- Lines 433-436: adding a control point appends
`(event.pos()/zoom + bottomleft, num)`. -/
def on_mouse_press_add (zoom : ℚ) (bl : ℤ × ℤ) (pos : ℤ × ℤ) (pts : List CPt) : List CPt :=
  pts ++ [(to_image_space zoom bl pos, nextId pts)]

/-- Squared Euclidean norm of a `QPoint`.  The source compares
`l2 = sqrt(x^2 + y^2)` values; `argmin` over the squares picks the same index
because the square root is strictly monotone. -/
def l2sq (p : ℤ × ℤ) : ℤ := p.1 ^ 2 + p.2 ^ 2

/-- Model of `np.argmin`: index of the first occurrence of the minimum. -/
def argminIdx : List ℤ → ℕ
  | [] => 0
  | [_] => 0
  | x :: y :: rest =>
      let j := argminIdx (y :: rest)
      if x ≤ (y :: rest).getD j 0 then 0 else j + 1

/-- Lines 425-430: shift-click removes the stored point nearest to
`event.pos()` (first one on ties); no-op when the store is empty. -/
def on_mouse_press_remove (pos : ℤ × ℤ) (pts : List CPt) : List CPt :=
  if pts.isEmpty then pts
  else pts.eraseIdx (argminIdx (pts.map (fun cp => l2sq (pos - cp.1))))

lemma qRound_two : qRound 2 = 2 :=
  qRound_eval 2 2 (by norm_num) (by norm_num) (by norm_num)

lemma foldl_max_init_le (l : List ℕ) (init : ℕ) : init ≤ l.foldl Nat.max init := by
  induction l generalizing init with
  | nil => exact le_refl _
  | cons x xs ih => exact le_trans (Nat.le_max_left init x) (ih (Nat.max init x))

lemma mem_le_foldl_max (l : List ℕ) (a : ℕ) (h : a ∈ l) (init : ℕ) :
    a ≤ l.foldl Nat.max init := by
  induction l generalizing init with
  | nil => cases h
  | cons x xs ih =>
      rcases List.mem_cons.mp h with rfl | hmem
      · exact le_trans (Nat.le_max_right init a) (foldl_max_init_le xs _)
      · exact ih hmem _

/-- C8 (counterexample): adding a first point assigns id `0`; shift-click
removes it; the next add assigns id `0` again.  The removed id is reused, so
"an id removed by deletion is never reused by a later add" is false. -/
theorem control_point_id_reused :
    on_mouse_press_add 1 (0, 0) (0, 0) [] = [((0, 0), 0)] ∧
    on_mouse_press_remove (1, 1) (on_mouse_press_add 1 (0, 0) (0, 0) []) = [] ∧
    on_mouse_press_add 1 (0, 0) (2, 2)
      (on_mouse_press_remove (1, 1) (on_mouse_press_add 1 (0, 0) (0, 0) [])) = [((2, 2), 0)] := by
  have h1 : on_mouse_press_add 1 (0, 0) (0, 0) [] = [((0, 0), 0)] := by
    simp [on_mouse_press_add, to_image_space, nextId, qRound_zero]
  have h2 : on_mouse_press_remove (1, 1) [((0, 0), 0)] = [] := by
    simp [on_mouse_press_remove, l2sq, argminIdx]
  have h3 : on_mouse_press_add 1 (0, 0) (2, 2) [] = [((2, 2), 0)] := by
    simp [on_mouse_press_add, to_image_space, nextId, qRound_two]
  refine ⟨h1, ?_, ?_⟩
  · rw [h1]
    exact h2
  · rw [h1, h2]
    exact h3

/-- C8 (amended): an add assigns id `max existing id + 1`, or `0` on an empty
store; consequently every id strictly below some id still present is never
assigned again, but an id that exceeded all remaining ids (e.g. the removed
maximum) can be reused. -/
theorem control_point_next_id (pts : List CPt) :
    (pts = [] → nextId pts = 0) ∧
    (pts ≠ [] → nextId pts = ((pts.map Prod.snd).foldl Nat.max 0) + 1) ∧
    (∀ p ∈ pts, p.2 < nextId pts) ∧
    (∀ k : ℕ, (∃ p ∈ pts, k < p.2) → nextId pts ≠ k) := by
  have hlt : ∀ p ∈ pts, p.2 < nextId pts := by
    intro p hp
    have hmem : p.2 ∈ pts.map Prod.snd := List.mem_map_of_mem _ hp
    have hle := mem_le_foldl_max _ _ hmem 0
    match pts, hp with
    | x :: rest, _ =>
        simp only [nextId]
        omega
  refine ⟨?_, ?_, hlt, ?_⟩
  · rintro rfl
    rfl
  · intro h
    match pts, h with
    | x :: rest, _ => rfl
  · rintro k ⟨p, hp, hk⟩
    have := hlt p hp
    omega

/-- Witness for C8 (amended) at a concrete store. -/
theorem control_point_next_id_witness :
    nextId [((0, 0), 0), ((1, 1), 2)] = 3 ∧ nextId [((0, 0), 0), ((1, 1), 2)] ≠ 1 := by
  have h := control_point_next_id [((0, 0), 0), ((1, 1), 2)]
  refine ⟨?_, h.2.2.2 1 ⟨((1, 1), 2), by decide, by decide⟩⟩
  rw [h.2.1 (by decide)]
  decide

/-! ## Tone mapping (`ImageControl` histogram pipeline)

Per-channel parameter record matching the keys of `self.state`
(lines 31-37); widgets and stored state are modelled explicitly. -/

structure ToneParams where
  contrast : ℚ
  brightness : ℚ
  gamma : ℚ
  min : ℚ
  max : ℚ
deriving DecidableEq, Repr

/-- Power `x ** g` on rationals, exact whenever the exponent is a nonnegative
integer.  The source computes a floating-point power; its value at
non-integer exponents is irrational and is not needed by any property proved
here (the claims only evaluate it at `gamma = 1`). -/
def qpow (x g : ℚ) : ℚ := if 0 ≤ g.num ∧ g.den = 1 then x ^ g.num.toNat else 0

/-- The per-channel transfer function of `update_histogram` (lines 250-256):
windowing `np.piecewise(I, [I<min, min<=I<=max, I>max], [0, (x-min)/(max-min), 1])`
followed by `np.clip(contrast*(u**gamma - 0.5) + brightness + 0.5, 0, 1)`. -/
def apply_channel (p : ToneParams) (x : ℚ) : ℚ :=
  let u := if x < p.min then 0
    else if x ≤ p.max then (x - p.min) / (p.max - p.min) else 1
  clipQ (p.contrast * (qpow u p.gamma - 1/2) + p.brightness + 1/2) 0 1

/-- C6: with the default state `{contrast 1, brightness 0, gamma 1, min 0,
max 1}` the tone-mapping transfer function is the identity on `[0,1]`. -/
theorem apply_channel_default_id (x : ℚ) (h0 : 0 ≤ x) (h1 : x ≤ 1) :
    apply_channel ⟨1, 0, 1, 0, 1⟩ x = x := by
  simp only [apply_channel, clipQ, qpow]
  rw [if_neg (not_lt.mpr h0), if_pos h1]
  norm_num
  rw [maxQ_eq_max, max_eq_left h0, minQ_eq_min, min_eq_left h1]

/-- Witness for C6 at `x = 1/3`. -/
theorem apply_channel_default_id_witness :
    (0:ℚ) ≤ 1/3 ∧ (1/3:ℚ) ≤ 1 ∧ apply_channel ⟨1, 0, 1, 0, 1⟩ (1/3) = 1/3 :=
  ⟨by norm_num, by norm_num, apply_channel_default_id (1/3) (by norm_num) (by norm_num)⟩

/-- Interactive state of one `ImageControl`: current channel, the five widget
values (`self.contrast.value()`, ..., `self.min.value()`, `self.max.value()`),
the per-channel stored dictionary `self.state`, and the original image's
channels (`self.image`, each channel a list of its samples in `[0,1]`). -/
structure ICState where
  w : ℕ
  wcontrast : ℚ
  wbrightness : ℚ
  wgamma : ℚ
  wmin : ℚ
  wmax : ℚ
  tone : ℕ → ToneParams
  image : List (List ℚ)

/-- The parameter write-back of `update_histogram` (lines 217-232): the stored
state of the current channel is overwritten with the widget values.  The pixel
work of the function is display-only here. -/
def update_histogram_state (s : ICState) : ICState :=
  { s with tone := Function.update s.tone s.w ⟨s.wcontrast, s.wbrightness, s.wgamma, s.wmin, s.wmax⟩ }

/-- Handler `change_min` (lines 193-203) triggered by editing the min spinbox to `v`:
after the edit the widget values are `(min, max) = (v, s.wmax)`; if
`min >= max` (that is, `s.wmax ≤ v`) the min widget is reset to the stored
value (the nested `valueChanged` emission re-runs the handler on the restored
valid value, taking the accept branch with the same net state), then
`update_histogram` writes the widget values back to the store. -/
def change_min (s : ICState) (v : ℚ) : ICState :=
  update_histogram_state
    (if s.wmax ≤ v then { s with wmin := (s.tone s.w).min } else { s with wmin := v })

/-- Handler `change_max` (lines 205-215) triggered by editing the max spinbox to `v`:
the reject test `min >= max` reads `(min, max) = (s.wmin, v)`. -/
def change_max (s : ICState) (v : ℚ) : ICState :=
  update_histogram_state
    (if v ≤ s.wmin then { s with wmax := (s.tone s.w).max } else { s with wmax := v })

/-- The widget min/max agree with the stored state of the current channel. -/
def ToneSync (s : ICState) : Prop :=
  s.wmin = (s.tone s.w).min ∧ s.wmax = (s.tone s.w).max

/-- The `min < max` invariant for every channel. -/
def ToneInv (s : ICState) : Prop := ∀ ch, (s.tone ch).min < (s.tone ch).max

lemma update_histogram_tone (t : ICState) (ch : ℕ) :
    (update_histogram_state t).tone ch =
      if ch = t.w then ⟨t.wcontrast, t.wbrightness, t.wgamma, t.wmin, t.wmax⟩
      else t.tone ch := by
  simp [update_histogram_state, Function.update_apply]

lemma change_min_tone (s : ICState) (v : ℚ) (ch : ℕ) :
    (change_min s v).tone ch =
      if ch = s.w then
        ⟨s.wcontrast, s.wbrightness, s.wgamma,
          if s.wmax ≤ v then (s.tone s.w).min else v, s.wmax⟩
      else s.tone ch := by
  unfold change_min
  split <;> simp_all [update_histogram_tone]

lemma change_max_tone (s : ICState) (v : ℚ) (ch : ℕ) :
    (change_max s v).tone ch =
      if ch = s.w then
        ⟨s.wcontrast, s.wbrightness, s.wgamma, s.wmin,
          if v ≤ s.wmin then (s.tone s.w).max else v⟩
      else s.tone ch := by
  unfold change_max
  split <;> simp_all [update_histogram_tone]

lemma change_min_fields (s : ICState) (v : ℚ) :
    (change_min s v).w = s.w ∧ (change_min s v).wmax = s.wmax ∧
      (change_min s v).wmin = (if s.wmax ≤ v then (s.tone s.w).min else v) := by
  unfold change_min update_histogram_state
  split <;> simp_all

lemma change_max_fields (s : ICState) (v : ℚ) :
    (change_max s v).w = s.w ∧ (change_max s v).wmin = s.wmin ∧
      (change_max s v).wmax = (if v ≤ s.wmin then (s.tone s.w).max else v) := by
  unfold change_max update_histogram_state
  split <;> simp_all

lemma change_min_inv (s : ICState) (v : ℚ) (hsync : ToneSync s) (hinv : ToneInv s) :
    ToneInv (change_min s v) := by
  intro ch
  rw [change_min_tone]
  split
  · dsimp only
    split
    · rw [hsync.2]
      exact hinv s.w
    · exact not_le.mp (by assumption)
  · exact hinv ch

lemma change_max_inv (s : ICState) (v : ℚ) (hsync : ToneSync s) (hinv : ToneInv s) :
    ToneInv (change_max s v) := by
  intro ch
  rw [change_max_tone]
  split
  · dsimp only
    split
    · rw [hsync.1]
      exact hinv s.w
    · exact not_le.mp (by assumption)
  · exact hinv ch

/-- C7: an edit that would set max at or below the current min (or min at or
above the current max) is rejected: the stored value of the channel is
retained and `min < max` keeps holding on every channel, for both handlers. -/
theorem tone_minmax_guard (s : ICState) (v : ℚ) (hsync : ToneSync s) (hinv : ToneInv s) :
    (v ≤ s.wmin → ((change_max s v).tone s.w).max = (s.tone s.w).max) ∧
    (s.wmax ≤ v → ((change_min s v).tone s.w).min = (s.tone s.w).min) ∧
    ToneInv (change_max s v) ∧ ToneInv (change_min s v) := by
  refine ⟨?_, ?_, change_max_inv s v hsync hinv, change_min_inv s v hsync hinv⟩
  · intro hv
    rw [change_max_tone, if_pos rfl]
    dsimp only
    rw [if_pos hv]
  · intro hv
    rw [change_min_tone, if_pos rfl]
    dsimp only
    rw [if_pos hv]

/-- A concrete single-channel interactive state with default parameters and a
two-sample image, used by the witnesses below. -/
def icSample : ICState :=
  { w := 0
    wcontrast := 1
    wbrightness := 0
    wgamma := 1
    wmin := 0
    wmax := 1
    tone := fun _ => ⟨1, 0, 1, 0, 1⟩
    image := [[0, 1]] }

/-- Witness for C7: on `icSample` (stored window `[0, 1]`), editing max down
to `-1` is rejected and the stored max stays `1`. -/
theorem tone_minmax_guard_witness :
    ((change_max icSample (-1)).tone 0).max = 1 := by
  have h := tone_minmax_guard icSample (-1) ⟨rfl, rfl⟩ (fun _ => by norm_num [icSample])
  exact h.1 (by norm_num [icSample])

/-- Model of `np.percentile(a, q)` with the default linear interpolation: flatten,
sort ascending, take index `i = (n-1)*q/100` and interpolate linearly between
the neighbouring order statistics.  numpy raises on an empty input; the claims
only evaluate nonempty images, so the empty case returns `0` here. -/
def percentileQ (xs : List ℚ) (q : ℚ) : ℚ :=
  if xs.isEmpty then 0
  else
    let sorted := List.insertionSort (· ≤ ·) xs
    let i : ℚ := ((xs.length : ℚ) - 1) * q / 100
    let a := sorted.getD (⌊i⌋).toNat 0
    let b := sorted.getD (⌈i⌉).toNat 0
    a + (i - (⌊i⌋ : ℚ)) * (b - a)

/-- Handler `auto_scale` (lines 348-355): `m = np.percentile(self.image, 5)` and
`M = np.percentile(self.image, 99)` are computed on the whole *original*
image, all channels pooled by flattening (`join`); `self.min.setValue(m)`
fires the connected `change_min` handler, `self.max.setValue(M)` fires
`change_max`, and `update_histogram` runs once more. -/
def auto_scale (s : ICState) : ICState :=
  update_histogram_state
    (change_max (change_min s (percentileQ s.image.flatten 5)) (percentileQ s.image.flatten 99))

lemma toneSync_update_histogram (t : ICState) : ToneSync (update_histogram_state t) := by
  constructor <;> simp [update_histogram_state, ToneSync, Function.update_same]

lemma toneSync_change_min (s : ICState) (v : ℚ) : ToneSync (change_min s v) :=
  toneSync_update_histogram _

lemma toneSync_change_max (s : ICState) (v : ℚ) : ToneSync (change_max s v) :=
  toneSync_update_histogram _

lemma toneInv_update_histogram (t : ICState) (hsync : ToneSync t) (hinv : ToneInv t) :
    ToneInv (update_histogram_state t) := by
  intro ch
  rw [update_histogram_tone]
  split
  · dsimp only
    rw [hsync.1, hsync.2]
    exact hinv t.w
  · exact hinv ch

/-- C10: `auto_scale` feeds the 5th and 99th percentiles of the entire
original image (all channels pooled by flattening) through the ordinary
`change_min`/`change_max` edit path, so the values are subject to the same
`min < max` guard: the invariant is preserved; a 5th percentile at or above
the current max leaves the stored min untouched; and when the two pooled
percentiles are in order below the current max they become the stored window. -/
theorem auto_scale_spec (s : ICState) (hsync : ToneSync s) (hinv : ToneInv s) :
    auto_scale s =
      update_histogram_state
        (change_max (change_min s (percentileQ s.image.flatten 5))
          (percentileQ s.image.flatten 99)) ∧
    ToneInv (auto_scale s) ∧
    (s.wmax ≤ percentileQ s.image.flatten 5 →
      ((auto_scale s).tone s.w).min = (s.tone s.w).min) ∧
    (percentileQ s.image.flatten 5 < s.wmax →
      percentileQ s.image.flatten 5 < percentileQ s.image.flatten 99 →
      ((auto_scale s).tone s.w).min = percentileQ s.image.flatten 5 ∧
        ((auto_scale s).tone s.w).max = percentileQ s.image.flatten 99) := by
  set m := percentileQ s.image.flatten 5 with hm
  set M := percentileQ s.image.flatten 99 with hM
  have hsync1 := toneSync_change_min s m
  have hinv1 := change_min_inv s m hsync hinv
  have hsync2 := toneSync_change_max (change_min s m) M
  have hinv2 := change_max_inv (change_min s m) M hsync1 hinv1
  have hw1 := (change_min_fields s m).1
  have hw2 := (change_max_fields (change_min s m) M).1
  have hww : (change_max (change_min s m) M).w = s.w := by rw [hw2, hw1]
  have hmin_val : ((auto_scale s).tone s.w).min = (change_max (change_min s m) M).wmin := by
    show ((update_histogram_state (change_max (change_min s m) M)).tone s.w).min = _
    rw [update_histogram_tone, if_pos hww.symm]
  have hmax_val : ((auto_scale s).tone s.w).max = (change_max (change_min s m) M).wmax := by
    show ((update_histogram_state (change_max (change_min s m) M)).tone s.w).max = _
    rw [update_histogram_tone, if_pos hww.symm]
  have hwmin2 : (change_max (change_min s m) M).wmin = (change_min s m).wmin :=
    (change_max_fields _ M).2.1
  have hwmin1 : (change_min s m).wmin = (if s.wmax ≤ m then (s.tone s.w).min else m) :=
    (change_min_fields s m).2.2
  have hwmax2 : (change_max (change_min s m) M).wmax =
      (if M ≤ (change_min s m).wmin then
        ((change_min s m).tone (change_min s m).w).max else M) :=
    (change_max_fields _ M).2.2
  refine ⟨rfl, toneInv_update_histogram _ hsync2 hinv2, ?_, ?_⟩
  · intro hv
    rw [hmin_val, hwmin2, hwmin1, if_pos hv]
  · intro hv1 hv2
    have hmv : (change_min s m).wmin = m := by
      rw [hwmin1, if_neg (not_le.mpr hv1)]
    constructor
    · rw [hmin_val, hwmin2, hmv]
    · rw [hmax_val, hwmax2, hmv, if_neg (not_le.mpr hv2)]

/-- Witness for C10 on `icSample` (image samples `{0, 1}`): the pooled 5th and
99th percentiles `1/20` and `99/100` pass the guard and become the window. -/
theorem auto_scale_spec_witness :
    ((auto_scale icSample).tone icSample.w).min = 1/20 ∧
      ((auto_scale icSample).tone icSample.w).max = 99/100 := by
  have hm5 : percentileQ icSample.image.flatten 5 = 1/20 := by
    show percentileQ [0, 1] 5 = 1/20
    norm_num [percentileQ, List.insertionSort, List.orderedInsert, List.getD,
      show ⌊(1:ℚ)/20⌋ = 0 from by rw [Int.floor_eq_iff]; norm_num,
      show ⌈(1:ℚ)/20⌉ = 1 from by rw [Int.ceil_eq_iff]; norm_num]
  have hm99 : percentileQ icSample.image.flatten 99 = 99/100 := by
    show percentileQ [0, 1] 99 = 99/100
    norm_num [percentileQ, List.insertionSort, List.orderedInsert, List.getD,
      show ⌊(99:ℚ)/100⌋ = 0 from by rw [Int.floor_eq_iff]; norm_num,
      show ⌈(99:ℚ)/100⌉ = 1 from by rw [Int.ceil_eq_iff]; norm_num]
  have h := auto_scale_spec icSample ⟨rfl, rfl⟩ (fun _ => by norm_num [icSample])
  have h4 := h.2.2.2 (by rw [hm5]; norm_num [icSample]) (by rw [hm5, hm99]; norm_num)
  exact ⟨by rw [h4.1, hm5], by rw [h4.2, hm99]⟩

/-! ## Parametric affine composition (`AlignAffine2D.update_transformation`)

The four elementary homogeneous matrices of lines 594-608, over ℚ.  The source
computes `c = cos(radians(rotation))`, `s = sin(radians(rotation))` in
floating point; the claims only use `rotation = 0`, where `c = 1` and `s = 0`
exactly, so the matrices are parameterised by the computed `(c, s)` pair. -/

def ShearM (sh_x sh_y : ℚ) : Matrix (Fin 3) (Fin 3) ℚ :=
  !![1, sh_x, 0; sh_y, 1, 0; 0, 0, 1]

def RotationM (c s : ℚ) : Matrix (Fin 3) (Fin 3) ℚ :=
  !![c, -s, 0; s, c, 0; 0, 0, 1]

def TranslationM (t_x t_y : ℚ) : Matrix (Fin 3) (Fin 3) ℚ :=
  !![1, 0, t_x; 0, 1, t_y; 0, 0, 1]

def ScaleM (sc_x sc_y : ℚ) : Matrix (Fin 3) (Fin 3) ℚ :=
  !![sc_x, 0, 0; 0, sc_y, 0; 0, 0, 1]

/-- Line 610: `T = Shear @ Scale @ Rotation @ Translation`. -/
def update_transformation_T (sh_x sh_y c s t_x t_y sc_x sc_y : ℚ) :
    Matrix (Fin 3) (Fin 3) ℚ :=
  ShearM sh_x sh_y * ScaleM sc_x sc_y * RotationM c s * TranslationM t_x t_y

/-- Application of a homogeneous 3×3 transform to a 2D point `(x, y)` via the
column vector `(x, y, 1)`. -/
def applyH (T : Matrix (Fin 3) (Fin 3) ℚ) (p : ℚ × ℚ) : ℚ × ℚ :=
  (T.mulVec ![p.1, p.2, 1] 0, T.mulVec ![p.1, p.2, 1] 1)

/-- C1 (counterexample): with shear 0, scale `(2, 1)`, rotation 0 and
translation `(5, 0)`, the composed transform maps `(1, 0)` to `(12, 0)`:
the translation is applied first and then scaled, so the result is not the
claimed `(7, 0)`. -/
theorem compose_claim_false :
    applyH (update_transformation_T 0 0 1 0 5 0 2 1) (1, 0) = (12, 0) ∧
      applyH (update_transformation_T 0 0 1 0 5 0 2 1) (1, 0) ≠ (7, 0) := by
  have h : applyH (update_transformation_T 0 0 1 0 5 0 2 1) (1, 0) = (12, 0) := by
    simp [applyH, update_transformation_T, ShearM, ScaleM, RotationM, TranslationM,
      Matrix.mulVec, Matrix.mul_apply, Matrix.dotProduct, Fin.sum_univ_three]
    norm_num
  refine ⟨h, ?_⟩
  rw [h]
  intro hc
  exact absurd (congrArg Prod.fst hc) (by norm_num)

/-- C1 (amended): the parametric composition builds
`T = Shear · Scale · Rotation · Translation` in that exact order, and for the
parameters `{shear 0, scale (2,1), rotation 0, translation (5,0)}` the
resulting transform maps the homogeneous point `(1, 0, 1)` to `(12, 0)`. -/
theorem compose_order_and_value :
    (∀ sh_x sh_y c s t_x t_y sc_x sc_y : ℚ,
      update_transformation_T sh_x sh_y c s t_x t_y sc_x sc_y =
        ShearM sh_x sh_y * ScaleM sc_x sc_y * RotationM c s * TranslationM t_x t_y) ∧
    applyH (update_transformation_T 0 0 1 0 5 0 2 1) (1, 0) = (12, 0) := by
  refine ⟨fun _ _ _ _ _ _ _ _ => rfl, ?_⟩
  simp [applyH, update_transformation_T, ShearM, ScaleM, RotationM, TranslationM,
    Matrix.mulVec, Matrix.mul_apply, Matrix.dotProduct, Fin.sum_univ_three]
  norm_num

/-! ## Least-squares alignment (`AlignAffine2D.align_control_points`)

Lines 613-626: the handler builds `a = [[x, y, 1] for (pos, name) in fixed]`,
`b = [[x, y, 1] ...]` for the moving points, runs
`np.linalg.lstsq(a, b, rcond=None)` and uses `T = transpose(solution)`
unconditionally — there is no correspondence-count or degeneracy check and no
error path.  `np.linalg.lstsq` returns the matrix minimising the squared
residual `‖a·X - b‖²`, and among all minimisers the one of least norm; the
call is embedded as an input/output relation with exactly that semantics. -/

/-- Sum of squared entries (squared Frobenius norm). -/
def sumSq {m n : ℕ} (M : Matrix (Fin m) (Fin n) ℚ) : ℚ := ∑ i, ∑ j, (M i j) ^ 2

/-- Frobenius inner product. -/
def frobDot {m n : ℕ} (M N : Matrix (Fin m) (Fin n) ℚ) : ℚ := ∑ i, ∑ j, M i j * N i j

/-- Predicate: `X` is the minimum-norm least-squares solution of `A·X ≈ B`, the
documented return value of `np.linalg.lstsq`. -/
def IsLstsqSol {n : ℕ} (A B : Matrix (Fin n) (Fin 3) ℚ) (X : Matrix (Fin 3) (Fin 3) ℚ) : Prop :=
  (∀ Y, sumSq (A * X - B) ≤ sumSq (A * Y - B)) ∧
  (∀ Y, (∀ Z, sumSq (A * Y - B) ≤ sumSq (A * Z - B)) → sumSq X ≤ sumSq Y)

/-- The `n × 3` homogeneous coordinate matrix with rows `[x_i, y_i, 1]`. -/
def designMatrix {n : ℕ} (pts : Fin n → ℚ × ℚ) : Matrix (Fin n) (Fin 3) ℚ :=
  Matrix.of fun i => ![(pts i).1, (pts i).2, 1]

/-- The failure kinds named by the specification for `estimate`. -/
inductive EstimationError where
  | InsufficientCorrespondences
  | DegenerateCorrespondences
deriving DecidableEq, Repr

/-- Input/output relation of `align_control_points`: the result is always
`Except.ok` of the transpose of the minimum-norm least-squares solution of
`a·X ≈ b`; no input is related to an error. -/
def align_control_points {n : ℕ} (fixedPts movingPts : Fin n → ℚ × ℚ)
    (r : Except EstimationError (Matrix (Fin 3) (Fin 3) ℚ)) : Prop :=
  ∃ X, IsLstsqSol (designMatrix fixedPts) (designMatrix movingPts) X ∧ r = Except.ok Xᵀ

lemma sumSq_nonneg {m n : ℕ} (M : Matrix (Fin m) (Fin n) ℚ) : 0 ≤ sumSq M :=
  Finset.sum_nonneg fun _ _ => Finset.sum_nonneg fun _ _ => sq_nonneg _

lemma sumSq_zero {m n : ℕ} : sumSq (0 : Matrix (Fin m) (Fin n) ℚ) = 0 := by
  simp [sumSq]

lemma sumSq_eq_zero {m n : ℕ} {M : Matrix (Fin m) (Fin n) ℚ} (h : sumSq M = 0) : M = 0 := by
  ext i j
  have hrow := (Finset.sum_eq_zero_iff_of_nonneg
    (fun i _ => Finset.sum_nonneg fun j _ => sq_nonneg (M i j))).mp h i (Finset.mem_univ i)
  have hentry := (Finset.sum_eq_zero_iff_of_nonneg
    (fun j _ => sq_nonneg (M i j))).mp hrow j (Finset.mem_univ j)
  simpa using pow_eq_zero_iff (n := 2) (by norm_num) |>.mp hentry

lemma sumSq_add {m n : ℕ} (M N : Matrix (Fin m) (Fin n) ℚ) :
    sumSq (M + N) = sumSq M + 2 * frobDot M N + sumSq N := by
  unfold sumSq frobDot
  simp only [Matrix.add_apply, add_sq, Finset.sum_add_distrib, Finset.mul_sum]
  ring_nf

lemma frobDot_eq_trace {m n : ℕ} (M N : Matrix (Fin m) (Fin n) ℚ) :
    frobDot M N = Matrix.trace (Mᵀ * N) := by
  unfold frobDot Matrix.trace
  simp only [Matrix.diag, Matrix.mul_apply, Matrix.transpose_apply]
  rw [Finset.sum_comm]

lemma frobDot_transpose_mul {n : ℕ} (A W : Matrix (Fin n) (Fin 3) ℚ)
    (D : Matrix (Fin 3) (Fin 3) ℚ) :
    frobDot (Aᵀ * W) D = frobDot W (A * D) := by
  rw [frobDot_eq_trace, frobDot_eq_trace, Matrix.transpose_mul, Matrix.transpose_transpose,
    Matrix.mul_assoc]

lemma frobDot_zero_right {m n : ℕ} (M : Matrix (Fin m) (Fin n) ℚ) :
    frobDot M 0 = 0 := by
  simp [frobDot]

/-- If `A·X = B` exactly and `X` lies in the row space of `A` (`X = Aᵀ·W`),
then `X` is the minimum-norm least-squares solution. -/
lemma isLstsq_of_exact {n : ℕ} (A B X : _) (W : Matrix (Fin n) (Fin 3) ℚ)
    (hAX : A * X = B) (hXW : X = Aᵀ * W) : IsLstsqSol A B X := by
  have hres : A * X - B = 0 := by rw [hAX, sub_self]
  constructor
  · intro Y
    rw [hres, sumSq_zero]
    exact sumSq_nonneg _
  · intro Y hY
    have h0 : sumSq (A * Y - B) = 0 := by
      have h1 := hY X
      rw [hres, sumSq_zero] at h1
      exact le_antisymm h1 (sumSq_nonneg _)
    have hAY : A * Y = B := sub_eq_zero.mp (sumSq_eq_zero h0)
    have hAD : A * (Y - X) = 0 := by rw [Matrix.mul_sub, hAY, hAX, sub_self]
    have hdot : frobDot X (Y - X) = 0 := by
      calc frobDot X (Y - X) = frobDot (Aᵀ * W) (Y - X) := by rw [← hXW]
        _ = frobDot W (A * (Y - X)) := frobDot_transpose_mul A W (Y - X)
        _ = 0 := by rw [hAD, frobDot_zero_right]
    have hkey : sumSq Y = sumSq X + sumSq (Y - X) := by
      have hY_decomp : Y = X + (Y - X) := by abel
      calc sumSq Y = sumSq (X + (Y - X)) := by rw [← hY_decomp]
        _ = sumSq X + 2 * frobDot X (Y - X) + sumSq (Y - X) := sumSq_add _ _
        _ = sumSq X + sumSq (Y - X) := by rw [hdot]; ring
    have := sumSq_nonneg (Y - X)
    linarith

/-- Two correspondences `(0,0) ↦ (0,0)`, `(1,0) ↦ (1,0)`. -/
def cex2pts : Fin 2 → ℚ × ℚ := ![(0, 0), (1, 0)]

/-- Three collinear correspondences on the x axis. -/
def cex3pts : Fin 3 → ℚ × ℚ := ![(0, 0), (1, 0), (2, 0)]

/-- The minimum-norm least-squares solution for both inputs above. -/
def cexX : Matrix (Fin 3) (Fin 3) ℚ := !![1, 0, 0; 0, 0, 0; 0, 0, 1]

lemma cex2_sol : IsLstsqSol (designMatrix cex2pts) (designMatrix cex2pts) cexX := by
  apply isLstsq_of_exact _ _ _ (!![-1, 0, 1; 1, 0, 0] : Matrix (Fin 2) (Fin 3) ℚ)
  · ext i j
    fin_cases i <;> fin_cases j <;>
      simp [designMatrix, cex2pts, cexX, Matrix.mul_apply, Fin.sum_univ_three, Matrix.vecHead, Matrix.vecTail]
  · ext i j
    fin_cases i <;> fin_cases j <;>
      simp [designMatrix, cex2pts, cexX, Matrix.mul_apply, Matrix.transpose_apply,
        Fin.sum_univ_two, Matrix.vecHead, Matrix.vecTail]

lemma cex3_sol : IsLstsqSol (designMatrix cex3pts) (designMatrix cex3pts) cexX := by
  apply isLstsq_of_exact _ _ _ (!![-1, 0, 1; 1, 0, 0; 0, 0, 0] : Matrix (Fin 3) (Fin 3) ℚ)
  · ext i j
    fin_cases i <;> fin_cases j <;>
      simp [designMatrix, cex3pts, cexX, Matrix.mul_apply, Fin.sum_univ_three, Matrix.vecHead, Matrix.vecTail]
  · ext i j
    fin_cases i <;> fin_cases j <;>
      simp [designMatrix, cex3pts, cexX, Matrix.mul_apply, Matrix.transpose_apply,
        Fin.sum_univ_three, Matrix.vecHead, Matrix.vecTail]

/-- C2 (counterexample): with only two correspondences the handler does not
fail with `InsufficientCorrespondences` — it returns the transpose of the
minimum-norm least-squares matrix; with three collinear points it does not
fail with `DegenerateCorrespondences` either. -/
theorem align_no_error_on_degenerate :
    (¬ align_control_points cex2pts cex2pts
        (Except.error EstimationError.InsufficientCorrespondences)) ∧
    align_control_points cex2pts cex2pts (Except.ok cexXᵀ) ∧
    (¬ align_control_points cex3pts cex3pts
        (Except.error EstimationError.DegenerateCorrespondences)) ∧
    align_control_points cex3pts cex3pts (Except.ok cexXᵀ) := by
  refine ⟨?_, ⟨cexX, cex2_sol, rfl⟩, ?_, ⟨cexX, cex3_sol, rfl⟩⟩
  · rintro ⟨X, -, h⟩
    exact Except.noConfusion h
  · rintro ⟨X, -, h⟩
    exact Except.noConfusion h

/-- C2 (amended): `align_control_points` performs no validation at all.  For
every pair of point sequences — including fewer than 3 correspondences and
collinear configurations — every result it can produce is `Except.ok` of the
transpose of the minimum-norm least-squares solution, never an error. -/
theorem align_control_points_never_fails {n : ℕ} (fixedPts movingPts : Fin n → ℚ × ℚ)
    (r : Except EstimationError (Matrix (Fin 3) (Fin 3) ℚ))
    (h : align_control_points fixedPts movingPts r) :
    (∀ e, r ≠ Except.error e) ∧
    ∃ X, IsLstsqSol (designMatrix fixedPts) (designMatrix movingPts) X ∧ r = Except.ok Xᵀ := by
  obtain ⟨X, hX, rfl⟩ := h
  exact ⟨fun e he => Except.noConfusion he, X, hX, rfl⟩

/-- Witness for C2 (amended), at the two-point input. -/
theorem align_control_points_never_fails_witness :
    (Except.ok cexXᵀ : Except EstimationError (Matrix (Fin 3) (Fin 3) ℚ)) ≠
      Except.error EstimationError.InsufficientCorrespondences :=
  (align_control_points_never_fails cex2pts cex2pts _ ⟨cexX, cex2_sol, rfl⟩).1
    EstimationError.InsufficientCorrespondences

/-! ## Warp application (`AlignAffine2D.update_overlay`)

`cv2.warpAffine(src, M, dsize)` samples, for every destination pixel `(x, y)`,
the source at the position obtained from the inverse of the 2×3 affine matrix
`M` (the default flags invert `M` internally), with bilinear interpolation and
a zero constant border.  `dsize` is documented as `(width, height)`; the
output array has `dsize[1]` rows and `dsize[0]` columns. -/

/-- An image: extent in rows (`height`) and columns (`width`) and a total pixel
map; only values at `0 ≤ y < height`, `0 ≤ x < width` are meaningful. -/
structure Img where
  height : ℕ
  width : ℕ
  pix : ℤ → ℤ → ℚ

/-- A 2×3 affine matrix, row-major, acting on `(x, y)`. -/
structure Affine23 where
  m00 : ℚ
  m01 : ℚ
  m02 : ℚ
  m10 : ℚ
  m11 : ℚ
  m12 : ℚ

/-- Pixel access with `BORDER_CONSTANT` value `0` outside the extent. -/
def pixelAt (im : Img) (y x : ℤ) : ℚ :=
  if 0 ≤ y ∧ y < (im.height : ℤ) ∧ 0 ≤ x ∧ x < (im.width : ℤ) then im.pix y x else 0

/-- Bilinear interpolation (`INTER_LINEAR`) of a source image at `(sx, sy)`. -/
def bilinear (im : Img) (sx sy : ℚ) : ℚ :=
  let x0 := ⌊sx⌋
  let y0 := ⌊sy⌋
  let a := sx - (x0 : ℚ)
  let b := sy - (y0 : ℚ)
  (1 - a) * (1 - b) * pixelAt im y0 x0 + a * (1 - b) * pixelAt im y0 (x0 + 1) +
    (1 - a) * b * pixelAt im (y0 + 1) x0 + a * b * pixelAt im (y0 + 1) (x0 + 1)

/-- Model of `cv2.invertAffineTransform` for a nonsingular 2×2 block (the singular case
is undefined in the source library and unused here). -/
def invertAffine23 (M : Affine23) : Affine23 :=
  let d := M.m00 * M.m11 - M.m01 * M.m10
  if d = 0 then ⟨0, 0, 0, 0, 0, 0⟩
  else ⟨M.m11 / d, -M.m01 / d, (M.m01 * M.m12 - M.m11 * M.m02) / d,
        -M.m10 / d, M.m00 / d, (M.m10 * M.m02 - M.m00 * M.m12) / d⟩

/-- Model of `cv2.warpAffine(src, M, dsize)` with default flags: destination extent
`dsize = (width, height)`, inverse mapping, bilinear sampling, zero border. -/
def warpAffine (src : Img) (M : Affine23) (dsize : ℕ × ℕ) : Img :=
  let Mi := invertAffine23 M
  { height := dsize.2
    width := dsize.1
    pix := fun y x =>
      bilinear src (Mi.m00 * (x : ℚ) + Mi.m01 * (y : ℚ) + Mi.m02)
        (Mi.m10 * (x : ℚ) + Mi.m11 * (y : ℚ) + Mi.m12) }

/-- From `update_overlay` line 575:
`cv2.warpAffine(self.moving, T[:2,:], self.fixed.shape)` — the numpy shape
tuple `(rows, cols)` is passed straight into the `dsize` slot, which cv2
reads as `(width, height)`. -/
def update_overlay_moving (moving fixed : Img) (T : Affine23) : Img :=
  warpAffine moving T (fixed.height, fixed.width)

/-- The 2×3 identity transform. -/
def idAffine : Affine23 := ⟨1, 0, 0, 0, 1, 0⟩

/-- A non-square fixed image: 2 rows, 3 columns. -/
def cexFixed : Img := ⟨2, 3, fun _ _ => 0⟩

/-- A moving image of the same 2×3 extent. -/
def cexMoving : Img := ⟨2, 3, fun _ _ => 1⟩

/-- A 2×2 square image with distinct pixel values. -/
def sq2 : Img := ⟨2, 2, fun y x => ((2 * y + x : ℤ) : ℚ)⟩

lemma invertAffine23_id : invertAffine23 idAffine = idAffine := by
  unfold invertAffine23 idAffine
  norm_num

/-- Identity warp reproduces the source pixel at integer destinations inside
the extent. -/
lemma warpAffine_id_pix (src : Img) (y x : ℤ) (hy0 : 0 ≤ y) (hy : y < (src.height : ℤ))
    (hx0 : 0 ≤ x) (hx : x < (src.width : ℤ)) (d : ℕ × ℕ) :
    (warpAffine src idAffine d).pix y x = src.pix y x := by
  unfold warpAffine
  rw [invertAffine23_id]
  show bilinear src (1 * (x : ℚ) + 0 * (y : ℚ) + 0) (0 * (x : ℚ) + 1 * (y : ℚ) + 0) = _
  rw [show (1 * (x : ℚ) + 0 * (y : ℚ) + 0) = (x : ℚ) by ring,
    show (0 * (x : ℚ) + 1 * (y : ℚ) + 0) = (y : ℚ) by ring]
  unfold bilinear
  simp only [Int.floor_intCast, sub_self]
  rw [show pixelAt src y x = src.pix y x from if_pos ⟨hy0, hy, hx0, hx⟩]
  ring

/-- C3 (code bug): with the non-square fixed image of extent `(2, 3)` the
warped moving image has extent `(3, 2)` — `fixed.shape` is passed as cv2's
`(width, height)` — so the output does not have the fixed image's extent (the
subsequent `np.dstack` with the fixed image is then ill-formed); the sampling
itself is the identity at the identity transform, as the claim expects. -/
theorem warp_extent_transposed :
    (update_overlay_moving cexMoving cexFixed idAffine).height = 3 ∧
    (update_overlay_moving cexMoving cexFixed idAffine).width = 2 ∧
    (update_overlay_moving cexMoving cexFixed idAffine).height ≠ cexFixed.height ∧
    (warpAffine sq2 idAffine (2, 2)).pix 0 1 = sq2.pix 0 1 ∧
    (warpAffine sq2 idAffine (2, 2)).pix 1 1 = sq2.pix 1 1 := by
  refine ⟨rfl, rfl, by decide, ?_, ?_⟩
  · exact warpAffine_id_pix sq2 0 1 (by norm_num) (by norm_num [sq2]) (by norm_num)
      (by norm_num [sq2]) (2, 2)
  · exact warpAffine_id_pix sq2 1 1 (by norm_num) (by norm_num [sq2]) (by norm_num)
      (by norm_num [sq2]) (2, 2)
